import Mathlib

/-!
Shallow embedding of `dirwatcher.py` (mikaiyl/dirwatcher).

The program is a polling directory watcher: `scan_file` incrementally scans a
single file for a keyword, `watch_dir` lists a directory, drives `scan_file`
over each listed file and reconciles removed files out of the history, and
`main` runs `watch_dir` in a loop until a signal handler sets a global exit
flag.

Modelling choices, all taken from the source:

* The filesystem is a record of the four primitives the code uses:
  `os.path.isdir`, `os.scandir`, `os.stat(...).st_size` and `open(...)` as a
  list of lines.  `none` from `statSize`/`readLines` models the
  `FileNotFoundError` raised when the path has vanished.
* `history` is a Python dict from path to the tuple `(max_num, st_size)`,
  embedded as an insertion-ordered association list.  Assigning an existing
  key keeps its position, a new key is appended, `pop` removes it — exactly
  CPython's dict semantics.
* Python exceptions are an `Option Exc` channel in each result.  Because the
  code mutates dicts in place, a raised exception still leaves the mutations
  performed so far visible to the caller; the embedded results therefore carry
  the mutated history together with the exception.  The one exception to
  in-place visibility is the `if not history: history = {}` idiom: when the
  caller's dict was empty (falsy) the callee rebinds to a fresh dict, so on an
  exception the caller's dict is left untouched.  The call sites model this
  with an `isEmpty` test.
* CPython raises `RuntimeError: dictionary changed size during iteration`
  from a dict iterator whose dict changed size; the size check runs before
  the exhaustion check, so the error fires on the step after any `pop`, even
  when the popped key was the last one produced.  The reconciliation loop in
  `watch_dir` (lines 119-126) pops inside the loop over `history`, so it
  processes keys in insertion order up to the first missing one, emits its
  removal event, pops it, then raises.
* Log calls are the program's observable events; each `Event` constructor is
  one `logger.*` call site (the message text itself is formatting, out of
  scope).  `time.sleep` is recorded as an event as well.
-/

namespace Dirwatcher

/-- Python's `a in b` substring helper: list-of-chars prefix test. -/
def isPrefOf : List Char → List Char → Bool
  | [], _ => true
  | _ :: _, [] => false
  | a :: as, b :: bs => a = b && isPrefOf as bs

/-- Contiguous-sublist test on characters, recursing over the haystack. -/
def hasSubList (pat : List Char) : List Char → Bool
  | [] => pat.isEmpty
  | c :: rest => isPrefOf pat (c :: rest) || hasSubList pat rest

/-- Python `word in line` for strings (substring containment). -/
def pyIn (word line : String) : Bool :=
  hasSubList word.data line.data

/-- Python `s.endswith(suffixStr)`. -/
def pyEndsWith (s suffixStr : String) : Bool :=
  isPrefOf suffixStr.data.reverse s.data.reverse

/-- One `os.scandir` entry: `path`, `name` and `is_dir()`. -/
structure DirEntry where
  path : String
  name : String
  is_dir : Bool
  deriving DecidableEq

/-- The filesystem primitives used by the program.  `none` from `statSize` or
`readLines` models `FileNotFoundError` (path vanished). -/
structure FS where
  isDir : String → Bool
  listDir : String → List DirEntry
  statSize : String → Option Nat
  readLines : String → Option (List String)

/-- One log call site of the program (plus `time.sleep`). -/
inductive Event
  | debugScan (path word : String)
  | newFile (name curdir : String)
  | found (word name : String) (idx : Int)
  | debugDir (dir : String)
  | removedFile (path : String)
  | warnMissing (dir : String)
  | sleepFor (n : Nat)
  | errorLog
  | infoReceived (sig : Nat)
  | bannerExiting
  | uptimeLog
  deriving DecidableEq

/-- A Python exception raised by the watcher. -/
inductive Exc
  | fileNotFound (path : String)
  | dictChangedSize
  deriving DecidableEq

/-- `history`: a Python dict from path to `(max_num, st_size)`, embedded as an
insertion-ordered association list. -/
abbrev History := List (String × Int × Nat)

/-- Dict lookup (`history[k]` / `k in history`). -/
def dictGet : History → String → Option (Int × Nat)
  | [], _ => none
  | e :: t, k => if e.1 = k then some e.2 else dictGet t k

/-- `k in history`. -/
def dictHas (h : History) (k : String) : Bool :=
  (dictGet h k).isSome

/-- Dict assignment `history[k] = v`: an existing key keeps its position, a
new key is appended (CPython insertion order). -/
def dictSet : History → String → Int × Nat → History
  | [], k, v => [(k, v)]
  | e :: t, k, v => if e.1 = k then (k, v) :: t else e :: dictSet t k v

/-- `history.pop(k)`. -/
def dictPop : History → String → History
  | [], _ => []
  | e :: t, k => if e.1 = k then t else e :: dictPop t k

/-- `list(history)`: the keys in insertion order. -/
def dictKeys (h : History) : List String :=
  h.map (fun e => e.1)

/-- `a.update(b)`: assign every entry of `b` into `a`. -/
def dictUpdate (a b : History) : History :=
  b.foldl (fun acc e => dictSet acc e.1 e.2) a

/-- The result of running a stateful piece of the program: the (in-place
mutated) history, the log events emitted so far, and the exception that
escaped, if any. -/
structure Outcome where
  history : History
  events : List Event
  exc : Option Exc
  deriving DecidableEq

/-- The `for j, line in enumerate(list(f))` loop of `scan_file`
(lines 85-90): `i = j-1`; a match event fires when
`i > max_num and word in line or j == 1`, and the fired branch also assigns
`max_num = i`.  Returns the final `max_num` and the match events in order. -/
def scanLinesAux (word name : String) : Nat → Int → List String → Int × List Event
  | _, maxNum, [] => (maxNum, [])
  | j, maxNum, line :: rest =>
      let i : Int := (j : Int) - 1
      if (i > maxNum ∧ pyIn word line = true) ∨ j = 1 then
        let r := scanLinesAux word name (j + 1) i rest
        (r.1, Event.found word name i :: r.2)
      else
        scanLinesAux word name (j + 1) maxNum rest

/-- Lines 83-92 of `scan_file`: `open` the file (`none` raises
`FileNotFoundError`), read `max_num` from the history entry (present at every
call site), run the line loop, then `history.update({path: (max_num, size)})`
with a fresh `os.stat` (`none` raises before the write-back). -/
def scanBody (fs : FS) (file : DirEntry) (word : String) (h : History)
    (evs : List Event) : Outcome :=
  match fs.readLines file.path with
  | none => ⟨h, evs, some (Exc.fileNotFound file.path)⟩
  | some lines =>
      let max0 := ((dictGet h file.path).getD (0, 0)).1
      let r := scanLinesAux word file.name 0 max0 lines
      match fs.statSize file.path with
      | none => ⟨h, evs ++ r.2, some (Exc.fileNotFound file.path)⟩
      | some sz2 => ⟨dictSet h file.path (r.1, sz2), evs ++ r.2, none⟩

/-- `scan_file(file, word, history, curdir)` (lines 61-94).  A tracked path
whose current `st_size` equals the recorded size returns the history
unchanged without reading; an untracked path first logs the discovery and
creates the entry `(0, st_size)`; then the file is read and scanned. -/
def scan_file (fs : FS) (file : DirEntry) (word : String) (history : History)
    (curdir : String) : Outcome :=
  let ev0 : List Event := [Event.debugScan file.path word]
  match dictGet history file.path with
  | some rec0 =>
      match fs.statSize file.path with
      | none => ⟨history, ev0, some (Exc.fileNotFound file.path)⟩
      | some sz =>
          if rec0.2 = sz then ⟨history, ev0, none⟩
          else scanBody fs file word history ev0
  | none =>
      let ev1 := ev0 ++ [Event.newFile file.name curdir]
      match fs.statSize file.path with
      | none => ⟨history, ev1, some (Exc.fileNotFound file.path)⟩
      | some sz => scanBody fs file word (dictSet history file.path (0, sz)) ev1

/-- The `for file in files: if not file.is_dir(): history.update(scan_file(...))`
loop of `watch_dir` (lines 115-117).  When `scan_file` raises, the loop stops
there; the caller's dict keeps the in-place mutations unless it was empty
(falsy), in which case `scan_file` had rebound to a fresh dict. -/
def scanAll (fs : FS) (word curdir : String) : List DirEntry → History → Outcome
  | [], h => ⟨h, [], none⟩
  | f :: rest, h =>
      if f.is_dir then scanAll fs word curdir rest h
      else
        let r := scan_file fs f word h curdir
        match r.exc with
        | some e => ⟨if h.isEmpty then h else r.history, r.events, some e⟩
        | none =>
            let r2 := scanAll fs word curdir rest (dictUpdate h r.history)
            ⟨r2.history, r.events ++ r2.events, r2.exc⟩

/-- The reconciliation loop of `watch_dir` (lines 119-126): iterate the
history keys in insertion order; for the first key not among the listed file
paths, log the removal, `pop` it, and then the dict iterator raises
`RuntimeError: dictionary changed size during iteration`. -/
def reconLoop (filePaths : List String) : List String → History → Outcome
  | [], h => ⟨h, [], none⟩
  | k :: rest, h =>
      if k ∈ filePaths then reconLoop filePaths rest h
      else ⟨dictPop h k, [Event.removedFile k], some Exc.dictChangedSize⟩

/-- The extension filter of `watch_dir` (lines 110-113): `if ext:` keeps only
entries whose `path` ends with `ext`; `None` or the empty string keeps all. -/
def filesOf (ext : Option String) (entries : List DirEntry) : List DirEntry :=
  match ext with
  | none => entries
  | some e => if e.isEmpty then entries else entries.filter (fun f => pyEndsWith f.path e)

/-- `watch_dir(directory, word, ext, history, wait)` (lines 97-131). -/
def watch_dir (fs : FS) (directory word : String) (ext : Option String)
    (history : History) (wait : Nat) : Outcome :=
  if fs.isDir directory then
    let files := filesOf ext (fs.listDir directory)
    let s := scanAll fs word directory files history
    match s.exc with
    | some e => ⟨s.history, Event.debugDir directory :: s.events, some e⟩
    | none =>
        let r := reconLoop (files.map (fun f => f.path)) (dictKeys s.history) s.history
        ⟨r.history, Event.debugDir directory :: (s.events ++ r.events), r.exc⟩
  else
    ⟨history, [Event.warnMissing directory, Event.sleepFor wait], none⟩

/-- `signal_handler(sig_num, frame)` (lines 40-58): log an info line naming
the signal, then set the global `exit_flag` to `True`.  Input: the current
flag; output: the new flag and the emitted events. -/
def signal_handler (sig : Nat) (_flag : Bool) : Bool × List Event :=
  (true, [Event.infoReceived sig])

/-- One pass of `main`'s `while not exit_flag` body per element of `fss`
(lines 154-168): run `watch_dir` (with the default `wait=5`), merge the
returned history with `history.update(...)`, log any escaped exception at
error level (both `except` arms call `logger.error`), then
`time.sleep(interval)`.  When `watch_dir` raised, the update is skipped but
the in-place mutations persist unless the loop's dict was empty (falsy). -/
def runPolls (dirp word : String) (ext : Option String) (interval : Nat) :
    List FS → History → History × List Event
  | [], h => (h, [])
  | fs :: rest, h =>
      let r := watch_dir fs dirp word ext h 5
      let h2 := match r.exc with
        | none => dictUpdate h r.history
        | some _ => if h.isEmpty then h else r.history
      let errE : List Event := match r.exc with
        | none => []
        | some _ => [Event.errorLog]
      let t := runPolls dirp word ext interval rest h2
      (t.1, r.events ++ errE ++ Event.sleepFor interval :: t.2)

/-- The `while not exit_flag` loop of `main` (lines 153-172), with the flag
observed at the top of each iteration (`flag k` is its value at check `k`)
and explicit fuel.  On observing the flag set, log the `Exiting` banner and
then the uptime banner and return. -/
def mainLoop (envs : Nat → FS) (dirp word : String) (ext : Option String)
    (interval : Nat) (flag : Nat → Bool) : Nat → Nat → History → History × List Event
  | 0, _, h => (h, [])
  | fuel + 1, k, h =>
      if flag k then (h, [Event.bannerExiting, Event.uptimeLog])
      else
        let r := watch_dir (envs k) dirp word ext h 5
        let h2 := match r.exc with
          | none => dictUpdate h r.history
          | some _ => if h.isEmpty then h else r.history
        let errE : List Event := match r.exc with
          | none => []
          | some _ => [Event.errorLog]
        let t := mainLoop envs dirp word ext interval flag fuel (k + 1) h2
        (t.1, r.events ++ errE ++ Event.sleepFor interval :: t.2)

/-- The environments of `n` consecutive poll iterations starting at check
`k`. -/
def pollStream (envs : Nat → FS) : Nat → Nat → List FS
  | _, 0 => []
  | k, n + 1 => envs k :: pollStream envs (k + 1) n

end Dirwatcher

namespace Dirwatcher

/-! ### Derived predicates used to state the claims -/

/-- The stored `max_num` of every history entry is non-negative. -/
def HistOk (h : History) : Prop :=
  ∀ e ∈ h, 0 ≤ e.2.1

instance (h : History) : Decidable (HistOk h) :=
  inferInstanceAs (Decidable (∀ e ∈ h, 0 ≤ e.2.1))

/-- A match event whose reported line index is negative, i.e. an event for
the first physical line (enumeration index 0, reported as `0 - 1 = -1`). -/
def negFound : Event → Bool
  | .found _ _ i => decide (i < 0)
  | _ => false

/-- A discovery event for the file called `nm` in directory `d`. -/
def isNewEv (nm d : String) : Event → Bool
  | .newFile n c => n = nm && c = d
  | _ => false

/-- An event attributable to the file with path `p` and name `nm`: its scan
trace, its discovery, a match in it, or its removal. -/
def aboutEv (p nm : String) : Event → Bool
  | .debugScan q _ => q = p
  | .newFile n _ => n = nm
  | .found _ n _ => n = nm
  | .removedFile q => q = p
  | _ => false

/-- Every non-directory entry listed under `dir` can be statted and read
(no file vanishes during the cycle). -/
def FS.readable (fs : FS) (dir : String) : Prop :=
  ∀ f ∈ fs.listDir dir, f.is_dir = false →
    (fs.statSize f.path).isSome = true ∧ (fs.readLines f.path).isSome = true

instance (fs : FS) (dir : String) : Decidable (FS.readable fs dir) :=
  inferInstanceAs (Decidable (∀ f ∈ fs.listDir dir, f.is_dir = false →
    (fs.statSize f.path).isSome = true ∧ (fs.readLines f.path).isSome = true))

/-! ### Concrete fixtures used by counterexample and witness theorems -/

/-- The single watched file `/w/a` as a scandir entry. -/
def entA : DirEntry := ⟨"/w/a", "a", false⟩

/-- First poll of the line-arithmetic scenario: three lines, the keyword on
lines 1 and 3. -/
def fsScan1 : FS :=
  { isDir := fun d => d = "/w"
    listDir := fun _ => [entA]
    statSize := fun _ => some 9
    readLines := fun _ => some ["x ERROR x", "y", "z ERROR z"] }

/-- Second poll: one keyword-free line appended, size grew to 11. -/
def fsScan2 : FS :=
  { fsScan1 with
    statSize := fun _ => some 11
    readLines := fun _ => some ["x ERROR x", "y", "z ERROR z", "w"] }

/-- A directory that exists but currently lists no entries. -/
def fsEmptyDir : FS :=
  { isDir := fun d => d = "/w"
    listDir := fun _ => []
    statSize := fun _ => none
    readLines := fun _ => none }

/-- A filesystem where `/w/a` is listed and stats fine but has vanished by
the time it is opened. -/
def fsVanish : FS :=
  { isDir := fun d => d = "/w"
    listDir := fun _ => [entA]
    statSize := fun _ => some 5
    readLines := fun _ => none }

/-- A directory `/w` containing a file named `x`; its path `/w/x` ends with
the filter string `w/x` although its name `x` does not. -/
def fsExt : FS :=
  { isDir := fun d => d = "/w"
    listDir := fun _ => [⟨"/w/x", "x", false⟩]
    statSize := fun _ => some 3
    readLines := fun _ => some ["k"] }

end Dirwatcher

namespace Dirwatcher

/-! ### Claim theorems: the directly computable ones -/

/-- C1 (code_bug): the match condition of `scan_file` is
`i > max_num and word in line or j == 1`, not "index exceeds
`lastScannedLine` and line contains the keyword".  Failing input: file
`/w/a` with lines `x ERROR x`, `y`, `z ERROR z`, keyword `ERROR`, then one
keyword-free line `w` appended before the next poll.  The first scan emits a
match for the keyword-free second line (the unconditional `j == 1` branch)
and never matches the first line although it contains the keyword; the
second scan (`M = 1` appended line, `K = 0` of them with the keyword) emits
two match events again, because the `j == 1` branch resets `max_num` to `0`
and line index 1 is then re-matched. -/
theorem scan_file_line_arith_bug :
    scan_file fsScan1 entA "ERROR" [] "/w" =
      ⟨[("/w/a", 1, 9)],
       [Event.debugScan "/w/a" "ERROR", Event.newFile "a" "/w",
        Event.found "ERROR" "a" 0, Event.found "ERROR" "a" 1], none⟩
    ∧ scan_file fsScan2 entA "ERROR" [("/w/a", 1, 9)] "/w" =
      ⟨[("/w/a", 1, 11)],
       [Event.debugScan "/w/a" "ERROR",
        Event.found "ERROR" "a" 0, Event.found "ERROR" "a" 1], none⟩ := by
  constructor <;> rfl

/-- C2: a tracked path whose current `st_size` equals the recorded size is
returned unchanged — no discovery or match event, no exception, the record
untouched — and the result does not depend on the file-content reader `rd`
at all (no read is performed). -/
theorem scan_file_size_skip (isd : String → Bool) (ld : String → List DirEntry)
    (st : String → Option Nat) (rd : String → Option (List String))
    (f : DirEntry) (w : String) (h : History) (d : String) (l : Int) (s : Nat)
    (hrec : dictGet h f.path = some (l, s)) (hst : st f.path = some s) :
    scan_file ⟨isd, ld, st, rd⟩ f w h d =
      ⟨h, [Event.debugScan f.path w], none⟩ := by
  simp [scan_file, hrec, hst]

/-- C2 witness: a concrete tracked file of unchanged size is skipped even
though its reader would fail. -/
theorem scan_file_size_skip_witness :
    dictGet [("/w/a", (2, 7))] entA.path = some (2, 7)
    ∧ (fun _ : String => some 7) entA.path = some 7
    ∧ scan_file ⟨fun _ => true, fun _ => [], fun _ => some 7, fun _ => none⟩
        entA "ERROR" [("/w/a", (2, 7))] "/w" =
      ⟨[("/w/a", (2, 7))], [Event.debugScan "/w/a" "ERROR"], none⟩ :=
  ⟨by decide, by decide,
    scan_file_size_skip (fun _ => true) (fun _ => []) (fun _ => some 7)
      (fun _ => none) entA "ERROR" [("/w/a", (2, 7))] "/w" 2 7
      (by decide) (by decide)⟩

/-- C3 (code_bug): the reconciliation loop pops keys out of the history dict
while iterating over it, so CPython raises
`RuntimeError: dictionary changed size during iteration` right after the
first removal.  Failing input: directory `/w` exists and lists no files,
history tracks `/w/a` and `/w/b`.  The code emits one removal event for
`/w/a` only, pops it, and the exception escapes `watch_dir`; `/w/b` stays
tracked and unannounced — not one event per missing path and not a normal
return. -/
theorem watch_dir_recon_raises :
    watch_dir fsEmptyDir "/w" "k" none [("/w/a", (0, 1)), ("/w/b", (0, 2))] 5 =
      ⟨[("/w/b", (0, 2))],
       [Event.debugDir "/w", Event.removedFile "/w/a"],
       some Exc.dictChangedSize⟩ := by
  rfl

/-- C4 (amended): when the file disappears between the size probe and the
read, `scan_file` raises `FileNotFoundError`.  For an already-tracked path
the history entry is left unchanged; for a newly-discovered path the entry
`(0, st_size)` has already been created when the read fails; and the main
loop catches the exception and logs it at error level before sleeping and
continuing. -/
theorem scan_file_vanish (fs : FS) (f : DirEntry) (w d : String) (h h' : History)
    (l : Int) (s n : Nat) (fs2 : FS) (d2 w2 : String) (ext : Option String)
    (h2 : History) (iv : Nat) (ex : Exc)
    (hrec : dictGet h f.path = some (l, s)) (hst : fs.statSize f.path = some n)
    (hne : s ≠ n) (hrd : fs.readLines f.path = none)
    (hrec' : dictGet h' f.path = none)
    (hexc : (watch_dir fs2 d2 w2 ext h2 5).exc = some ex) :
    scan_file fs f w h d =
      ⟨h, [Event.debugScan f.path w], some (Exc.fileNotFound f.path)⟩
    ∧ scan_file fs f w h' d =
      ⟨dictSet h' f.path (0, n),
       [Event.debugScan f.path w, Event.newFile f.name d],
       some (Exc.fileNotFound f.path)⟩
    ∧ (runPolls d2 w2 ext iv [fs2] h2).2 =
      (watch_dir fs2 d2 w2 ext h2 5).events ++ [Event.errorLog, Event.sleepFor iv] := by
  refine ⟨?_, ?_, ?_⟩
  · simp [scan_file, scanBody, hrec, hst, hne, hrd]
  · simp [scan_file, scanBody, hrec', hst, hrd]
  · simp [runPolls, hexc]

/-- C4 witness: the vanished-file scenario instantiated on `/w/a`. -/
theorem scan_file_vanish_witness :
    dictGet [("/w/a", (2, 7))] entA.path = some (2, 7)
    ∧ fsVanish.statSize entA.path = some 5
    ∧ (7 : Nat) ≠ 5
    ∧ fsVanish.readLines entA.path = none
    ∧ dictGet [("/w/old", (0, 3))] entA.path = none
    ∧ (watch_dir fsVanish "/w" "k" none [("/w/old", (0, 3))] 5).exc =
        some (Exc.fileNotFound "/w/a")
    ∧ scan_file fsVanish entA "k" [("/w/a", (2, 7))] "/w" =
      ⟨[("/w/a", (2, 7))], [Event.debugScan "/w/a" "k"],
       some (Exc.fileNotFound "/w/a")⟩
    ∧ scan_file fsVanish entA "k" [("/w/old", (0, 3))] "/w" =
      ⟨[("/w/old", (0, 3)), ("/w/a", (0, 5))],
       [Event.debugScan "/w/a" "k", Event.newFile "a" "/w"],
       some (Exc.fileNotFound "/w/a")⟩
    ∧ (runPolls "/w" "k" none 1 [fsVanish] [("/w/old", (0, 3))]).2 =
      (watch_dir fsVanish "/w" "k" none [("/w/old", (0, 3))] 5).events ++
        [Event.errorLog, Event.sleepFor 1] :=
  ⟨by decide, by decide, by decide, by decide, by decide, by decide,
    (scan_file_vanish fsVanish entA "k" "/w" [("/w/a", (2, 7))]
      [("/w/old", (0, 3))] 2 7 5 fsVanish "/w" "k" none [("/w/old", (0, 3))] 1
      (Exc.fileNotFound "/w/a") (by decide) (by decide) (by decide) (by decide)
      (by decide) (by decide)).1,
    (scan_file_vanish fsVanish entA "k" "/w" [("/w/a", (2, 7))]
      [("/w/old", (0, 3))] 2 7 5 fsVanish "/w" "k" none [("/w/old", (0, 3))] 1
      (Exc.fileNotFound "/w/a") (by decide) (by decide) (by decide) (by decide)
      (by decide) (by decide)).2.1,
    (scan_file_vanish fsVanish entA "k" "/w" [("/w/a", (2, 7))]
      [("/w/old", (0, 3))] 2 7 5 fsVanish "/w" "k" none [("/w/old", (0, 3))] 1
      (Exc.fileNotFound "/w/a") (by decide) (by decide) (by decide) (by decide)
      (by decide) (by decide)).2.2⟩

/-- C4 counterexample: on the concrete vanish scenario the poll cycle logs
the condition at error level (`logger.error` in `main`) and the history
entry for the newly-discovered path is not left unchanged — `(0, 5)` was
created before the failed read and persists into the next cycle. -/
theorem scan_file_vanish_cex :
    runPolls "/w" "k" none 1 [fsVanish] [("/w/old", (0, 3))] =
      ([("/w/old", (0, 3)), ("/w/a", (0, 5))],
       [Event.debugDir "/w", Event.debugScan "/w/a" "k", Event.newFile "a" "/w",
        Event.errorLog, Event.sleepFor 1]) := by
  rfl

/-- C7: when the target path is not a directory, `watch_dir` logs the
directory-not-found warning, sleeps for `wait`, and returns the given
history unmodified without raising. -/
theorem watch_dir_missing_dir (fs : FS) (d w : String) (ext : Option String)
    (h : History) (wait : Nat) (hdir : fs.isDir d = false) :
    watch_dir fs d w ext h wait =
      ⟨h, [Event.warnMissing d, Event.sleepFor wait], none⟩ := by
  simp [watch_dir, hdir]

/-- C7 witness: watching a missing directory on a concrete filesystem. -/
theorem watch_dir_missing_dir_witness :
    fsEmptyDir.isDir "/nope" = false
    ∧ watch_dir fsEmptyDir "/nope" "k" (some ".log") [("/w/a", (0, 1))] 5 =
      ⟨[("/w/a", (0, 1))], [Event.warnMissing "/nope", Event.sleepFor 5], none⟩ :=
  ⟨by decide,
    watch_dir_missing_dir fsEmptyDir "/nope" "k" (some ".log")
      [("/w/a", (0, 1))] 5 (by decide)⟩

/-- C9 (amended): the signal handler unconditionally sets the exit flag to
`True`, and additionally emits exactly one info-level log line naming the
received signal; the flag is the only program state it writes, but the log
emission is an I/O effect. -/
theorem signal_handler_amended (sig : Nat) (flag : Bool) :
    signal_handler sig flag = (true, [Event.infoReceived sig]) := rfl

/-- C9 counterexample: the handler does perform I/O — delivering signal 2
emits a log event, so its only effect is not the flag write. -/
theorem signal_handler_logs_cex :
    (signal_handler 2 false).2 ≠ [] := by decide

end Dirwatcher

namespace Dirwatcher

/-! ### Dict lemmas -/

@[simp] theorem dictGet_nil (k : String) : dictGet [] k = none := rfl

@[simp] theorem dictGet_cons (e : String × Int × Nat) (t : History) (k : String) :
    dictGet (e :: t) k = if e.1 = k then some e.2 else dictGet t k := rfl

theorem dictGet_set (h : History) (k q : String) (v : Int × Nat) :
    dictGet (dictSet h k v) q = if k = q then some v else dictGet h q := by
  induction h with
  | nil => by_cases hq : k = q <;> simp [dictSet, hq]
  | cons e t ih =>
      by_cases hk : e.1 = k
      · by_cases hq : k = q <;> simp [dictSet, hk, hq, hk.trans]
      · have hek : ¬ (e.1 = q ∧ k = q) := by
          rintro ⟨h1, h2⟩; exact hk (h1.trans h2.symm)
        by_cases hq : e.1 = q
        · have hkq : k ≠ q := fun hkq => hek ⟨hq, hkq⟩
          simp [dictSet, hk, hq, hkq, Ne.symm hkq]
        · simp [dictSet, hk, hq, ih]

theorem dictHas_set (h : History) (k q : String) (v : Int × Nat) :
    dictHas (dictSet h k v) q = if k = q then true else dictHas h q := by
  by_cases hq : k = q <;> simp [dictHas, dictGet_set, hq]

theorem dictHas_update (a b : History) (q : String) :
    dictHas (dictUpdate a b) q = (dictHas a q || dictHas b q) := by
  induction b generalizing a with
  | nil => simp [dictUpdate, dictHas]
  | cons e t ih =>
      show dictHas (dictUpdate (dictSet a e.1 e.2) t) q = _
      rw [ih, dictHas_set]
      by_cases he : e.1 = q <;> simp [dictHas, he]

theorem dictHas_pop_le (h : History) (k q : String)
    (hq : dictHas (dictPop h k) q = true) : dictHas h q = true := by
  induction h with
  | nil => simpa [dictPop] using hq
  | cons e t ih =>
      by_cases hk : e.1 = k
      · rw [dictPop, if_pos hk] at hq
        by_cases he : e.1 = q <;> simp [dictHas, he, hq]
        exact hq
      · rw [dictPop, if_neg hk] at hq
        by_cases he : e.1 = q
        · simp [dictHas, he]
        · simp only [dictHas, dictGet_cons, if_neg he] at hq ⊢
          exact ih hq

theorem dictKeys_has (h : History) (k : String) (hk : k ∈ dictKeys h) :
    dictHas h k = true := by
  induction h with
  | nil => simp [dictKeys] at hk
  | cons e t ih =>
      rcases List.mem_cons.mp hk with he | ht
      · simp [dictHas, dictKeys, he.symm]
      · by_cases hek : e.1 = k
        · simp [dictHas, hek]
        · simp only [dictHas, dictGet_cons, if_neg hek]
          exact ih ht

theorem dictHas_none_keys (h : History) (k : String)
    (hk : dictHas h k = false) : k ∉ dictKeys h := by
  intro hmem
  rw [dictKeys_has h k hmem] at hk
  simp at hk

/-! ### Line-loop lemmas -/

theorem scanLinesAux_nonneg (w nm : String) (lines : List String) :
    ∀ (j : Nat) (m : Int), 1 ≤ j → 0 ≤ m →
      0 ≤ (scanLinesAux w nm j m lines).1 ∧
      ∀ ev ∈ (scanLinesAux w nm j m lines).2, negFound ev = false := by
  induction lines with
  | nil => intro j m _ hm; simpa [scanLinesAux] using hm
  | cons l rest ih =>
      intro j m hj hm
      simp only [scanLinesAux]
      split
      · have hi : (0 : Int) ≤ (j : Int) - 1 := by omega
        obtain ⟨h1, h2⟩ := ih (j + 1) ((j : Int) - 1) (by omega) hi
        refine ⟨h1, ?_⟩
        intro ev hev
        rcases List.mem_cons.mp hev with rfl | hev
        · simp only [negFound, decide_eq_false_iff_not]
          omega
        · exact h2 ev hev
      · exact ih (j + 1) m (by omega) hm

theorem scanLines_nonneg (w nm : String) (lines : List String) (m : Int)
    (hm : 0 ≤ m) :
    0 ≤ (scanLinesAux w nm 0 m lines).1 ∧
    ∀ ev ∈ (scanLinesAux w nm 0 m lines).2, negFound ev = false := by
  cases lines with
  | nil => simpa [scanLinesAux] using hm
  | cons l rest =>
      simp only [scanLinesAux]
      split
      · next hc =>
          exfalso
          rcases hc with ⟨h1, _⟩ | h0
          · omega
          · omega
      · exact scanLinesAux_nonneg w nm rest 1 m le_rfl hm

/-! ### History invariant lemmas -/

theorem HistOk_tail (e : String × Int × Nat) (t : History)
    (hok : HistOk (e :: t)) : HistOk t :=
  fun x hx => hok x (List.mem_cons_of_mem _ hx)

theorem HistOk_set (h : History) (k : String) (v : Int × Nat)
    (hok : HistOk h) (hv : 0 ≤ v.1) : HistOk (dictSet h k v) := by
  induction h with
  | nil =>
      intro e he
      simp only [dictSet, List.mem_singleton] at he
      simpa [he] using hv
  | cons a t ih =>
      intro e he
      by_cases hk : a.1 = k
      · rw [dictSet, if_pos hk] at he
        rcases List.mem_cons.mp he with rfl | ht
        · simpa using hv
        · exact hok e (List.mem_cons_of_mem a ht)
      · rw [dictSet, if_neg hk] at he
        rcases List.mem_cons.mp he with rfl | ht
        · exact hok e (List.mem_cons_self _ _)
        · exact ih (HistOk_tail a t hok) e ht

theorem HistOk_getD (h : History) (p : String) (hok : HistOk h) :
    0 ≤ ((dictGet h p).getD (0, 0)).1 := by
  induction h with
  | nil => simp
  | cons e t ih =>
      by_cases he : e.1 = p
      · simpa [he] using hok e (List.mem_cons_self _ _)
      · simp only [dictGet_cons, if_neg he]
        exact ih (HistOk_tail e t hok)

end Dirwatcher

namespace Dirwatcher

/-! ### scan_file-level facts -/

theorem scanBody_ok (fs : FS) (f : DirEntry) (w : String) (h : History)
    (evs : List Event) (hok : HistOk h) (hevs : ∀ ev ∈ evs, negFound ev = false) :
    (∀ ev ∈ (scanBody fs f w h evs).events, negFound ev = false)
    ∧ HistOk (scanBody fs f w h evs).history := by
  cases hr : fs.readLines f.path with
  | none => simp only [scanBody, hr]; exact ⟨hevs, hok⟩
  | some lines =>
      have hm := HistOk_getD h f.path hok
      obtain ⟨hmax, hlev⟩ :=
        scanLines_nonneg w f.name lines ((dictGet h f.path).getD (0, 0)).1 hm
      cases hs : fs.statSize f.path with
      | none =>
          simp only [scanBody, hr, hs]
          refine ⟨?_, hok⟩
          intro ev hev
          rcases List.mem_append.mp hev with hev | hev
          · exact hevs ev hev
          · exact hlev ev hev
      | some sz2 =>
          simp only [scanBody, hr, hs]
          constructor
          · intro ev hev
            rcases List.mem_append.mp hev with hev | hev
            · exact hevs ev hev
            · exact hlev ev hev
          · exact HistOk_set h f.path _ hok hmax

/-- C10: for every file `scan_file` reads and every keyword, no match event
is emitted for the file's first line (enumeration index 0, whose reported
index `j - 1` would be `-1`): assuming every stored `max_num` in the history
is non-negative — the invariant the scanner itself maintains, recreated in
the second conjunct — the first line's shifted index `-1` can never exceed
it, and the special-cased `j == 1` branch only fires for the second line, so
every emitted match index is `≥ 0`. -/
theorem scan_file_no_first_line_match (fs : FS) (f : DirEntry) (w : String)
    (h : History) (d : String) (hok : HistOk h) :
    (∀ ev ∈ (scan_file fs f w h d).events, negFound ev = false)
    ∧ HistOk (scan_file fs f w h d).history := by
  have hdbg : ∀ ev ∈ [Event.debugScan f.path w], negFound ev = false := by
    intro ev hev
    simp only [List.mem_singleton] at hev
    simp [hev, negFound]
  cases hrec : dictGet h f.path with
  | some rec0 =>
      cases hs : fs.statSize f.path with
      | none =>
          simp only [scan_file, hrec, hs]
          exact ⟨hdbg, hok⟩
      | some sz =>
          by_cases heq : rec0.2 = sz
          · simp only [scan_file, hrec, hs, if_pos heq]
            exact ⟨hdbg, hok⟩
          · simp only [scan_file, hrec, hs, if_neg heq]
            exact scanBody_ok fs f w h _ hok hdbg
  | none =>
      cases hs : fs.statSize f.path with
      | none =>
          simp only [scan_file, hrec, hs]
          refine ⟨?_, hok⟩
          intro ev hev
          rcases List.mem_cons.mp hev with rfl | hev
          · rfl
          · simp at hev
            simp [hev, negFound]
      | some sz =>
          simp only [scan_file, hrec, hs]
          refine scanBody_ok fs f w (dictSet h f.path (0, sz)) _
            (HistOk_set h f.path (0, sz) hok (by simp)) ?_
          intro ev hev
          rcases List.mem_cons.mp hev with rfl | hev
          · rfl
          · simp at hev
            simp [hev, negFound]

/-- C10 witness: a history with entry `(2, 9)` for `/w/a` satisfies the
non-negativity invariant, and rescanning the grown file emits only
non-negative match indices and preserves the invariant. -/
theorem scan_file_no_first_line_match_witness :
    HistOk [("/w/a", (2, 9))]
    ∧ ((∀ ev ∈ (scan_file fsScan2 entA "ERROR" [("/w/a", (2, 9))] "/w").events,
          negFound ev = false)
       ∧ HistOk (scan_file fsScan2 entA "ERROR" [("/w/a", (2, 9))] "/w").history) :=
  ⟨by decide,
    scan_file_no_first_line_match fsScan2 entA "ERROR" [("/w/a", (2, 9))] "/w"
      (by decide)⟩

end Dirwatcher

namespace Dirwatcher

/-! ### Event-shape and counting lemmas for the scanner -/

theorem scanLinesAux_events_found (w nm : String) (lines : List String) :
    ∀ (j : Nat) (m : Int), ∀ ev ∈ (scanLinesAux w nm j m lines).2,
      ∃ i, ev = Event.found w nm i := by
  induction lines with
  | nil => intro j m ev hev; simp [scanLinesAux] at hev
  | cons l rest ih =>
      intro j m ev hev
      simp only [scanLinesAux] at hev
      split at hev
      · rcases List.mem_cons.mp hev with rfl | hev
        · exact ⟨_, rfl⟩
        · exact ih (j + 1) _ ev hev
      · exact ih (j + 1) m ev hev

theorem scanLinesAux_countNew (nm d w n : String) (lines : List String)
    (j : Nat) (m : Int) :
    List.countP (isNewEv nm d) (scanLinesAux w n j m lines).2 = 0 := by
  rw [List.countP_eq_zero]
  intro ev hev
  obtain ⟨i, rfl⟩ := scanLinesAux_events_found w n lines j m ev hev
  simp [isNewEv]

theorem scanBody_events_le (fs : FS) (f : DirEntry) (w : String) (h : History)
    (evs : List Event) :
    ∀ ev ∈ (scanBody fs f w h evs).events,
      ev ∈ evs ∨ ∃ i, ev = Event.found w f.name i := by
  intro ev hev
  cases hr : fs.readLines f.path with
  | none =>
      simp only [scanBody, hr] at hev
      exact Or.inl hev
  | some lines =>
      cases hs : fs.statSize f.path with
      | none =>
          simp only [scanBody, hr, hs] at hev
          rcases List.mem_append.mp hev with hev | hev
          · exact Or.inl hev
          · exact Or.inr (scanLinesAux_events_found w f.name lines 0 _ ev hev)
      | some sz2 =>
          simp only [scanBody, hr, hs] at hev
          rcases List.mem_append.mp hev with hev | hev
          · exact Or.inl hev
          · exact Or.inr (scanLinesAux_events_found w f.name lines 0 _ ev hev)

theorem scanBody_countNew (fs : FS) (f : DirEntry) (w : String) (h : History)
    (evs : List Event) (nm d : String) :
    List.countP (isNewEv nm d) (scanBody fs f w h evs).events =
      List.countP (isNewEv nm d) evs := by
  cases hr : fs.readLines f.path with
  | none => simp [scanBody, hr]
  | some lines =>
      cases hs : fs.statSize f.path with
      | none =>
          simp only [scanBody, hr, hs]
          rw [List.countP_append, scanLinesAux_countNew]
          simp
      | some sz2 =>
          simp only [scanBody, hr, hs]
          rw [List.countP_append, scanLinesAux_countNew]
          simp

theorem scanBody_exc (fs : FS) (f : DirEntry) (w : String) (h : History)
    (evs : List Event) (h1 : (fs.readLines f.path).isSome = true)
    (h2 : (fs.statSize f.path).isSome = true) :
    (scanBody fs f w h evs).exc = none := by
  cases hr : fs.readLines f.path with
  | none => rw [hr] at h1; simp at h1
  | some lines =>
      cases hs : fs.statSize f.path with
      | none => rw [hs] at h2; simp at h2
      | some sz2 => simp [scanBody, hr, hs]

theorem scanBody_has_le (fs : FS) (f : DirEntry) (w : String) (h : History)
    (evs : List Event) (q : String)
    (hq : dictHas (scanBody fs f w h evs).history q = true) :
    dictHas h q = true ∨ f.path = q := by
  cases hr : fs.readLines f.path with
  | none => rw [scanBody] at hq; rw [hr] at hq; exact Or.inl hq
  | some lines =>
      cases hs : fs.statSize f.path with
      | none =>
          simp only [scanBody, hr, hs] at hq
          exact Or.inl hq
      | some sz2 =>
          simp only [scanBody, hr, hs] at hq
          rw [dictHas_set] at hq
          by_cases hpq : f.path = q
          · exact Or.inr hpq
          · rw [if_neg hpq] at hq; exact Or.inl hq

theorem scanBody_has_of_none (fs : FS) (f : DirEntry) (w : String) (h : History)
    (evs : List Event) (q : String)
    (hexc : (scanBody fs f w h evs).exc = none) :
    dictHas (scanBody fs f w h evs).history q =
      if f.path = q then true else dictHas h q := by
  cases hr : fs.readLines f.path with
  | none =>
      simp only [scanBody, hr] at hexc
      exact Option.noConfusion hexc
  | some lines =>
      cases hs : fs.statSize f.path with
      | none =>
          simp only [scanBody, hr, hs] at hexc
          exact Option.noConfusion hexc
      | some sz2 =>
          simp only [scanBody, hr, hs]
          exact dictHas_set h f.path q _

theorem scan_file_exc_none (fs : FS) (f : DirEntry) (w : String) (h : History)
    (d : String) (h1 : (fs.statSize f.path).isSome = true)
    (h2 : (fs.readLines f.path).isSome = true) :
    (scan_file fs f w h d).exc = none := by
  cases hrec : dictGet h f.path with
  | some rec0 =>
      cases hs : fs.statSize f.path with
      | none => rw [hs] at h1; simp at h1
      | some sz =>
          by_cases heq : rec0.2 = sz
          · simp [scan_file, hrec, hs, heq]
          · simp only [scan_file, hrec, hs, if_neg heq]
            exact scanBody_exc fs f w h _ h2 h1
  | none =>
      cases hs : fs.statSize f.path with
      | none => rw [hs] at h1; simp at h1
      | some sz =>
          simp only [scan_file, hrec, hs]
          exact scanBody_exc fs f w _ _ h2 h1

theorem scan_file_has_of_none (fs : FS) (f : DirEntry) (w : String)
    (h : History) (d q : String) (hexc : (scan_file fs f w h d).exc = none) :
    dictHas (scan_file fs f w h d).history q =
      if f.path = q then true else dictHas h q := by
  cases hrec : dictGet h f.path with
  | some rec0 =>
      cases hs : fs.statSize f.path with
      | none =>
          simp only [scan_file, hrec, hs] at hexc
          exact Option.noConfusion hexc
      | some sz =>
          by_cases heq : rec0.2 = sz
          · simp only [scan_file, hrec, hs, if_pos heq]
            by_cases hpq : f.path = q
            · subst hpq
              simp [dictHas, hrec]
            · rw [if_neg hpq]
          · simp only [scan_file, hrec, hs, if_neg heq] at hexc ⊢
            exact scanBody_has_of_none fs f w h _ q hexc
  | none =>
      cases hs : fs.statSize f.path with
      | none =>
          simp only [scan_file, hrec, hs] at hexc
          exact Option.noConfusion hexc
      | some sz =>
          simp only [scan_file, hrec, hs] at hexc ⊢
          rw [scanBody_has_of_none fs f w _ _ q hexc]
          by_cases hpq : f.path = q
          · simp [hpq]
          · rw [if_neg hpq, if_neg hpq, dictHas_set, if_neg hpq]

theorem scan_file_has_le (fs : FS) (f : DirEntry) (w : String) (h : History)
    (d q : String)
    (hq : dictHas (scan_file fs f w h d).history q = true) :
    dictHas h q = true ∨ f.path = q := by
  cases hrec : dictGet h f.path with
  | some rec0 =>
      cases hs : fs.statSize f.path with
      | none => simp only [scan_file, hrec, hs] at hq; exact Or.inl hq
      | some sz =>
          by_cases heq : rec0.2 = sz
          · simp only [scan_file, hrec, hs, if_pos heq] at hq
            exact Or.inl hq
          · simp only [scan_file, hrec, hs, if_neg heq] at hq
            exact scanBody_has_le fs f w h _ q hq
  | none =>
      cases hs : fs.statSize f.path with
      | none => simp only [scan_file, hrec, hs] at hq; exact Or.inl hq
      | some sz =>
          simp only [scan_file, hrec, hs] at hq
          rcases scanBody_has_le fs f w _ _ q hq with hq2 | hq2
          · rw [dictHas_set] at hq2
            by_cases hpq : f.path = q
            · exact Or.inr hpq
            · rw [if_neg hpq] at hq2; exact Or.inl hq2
          · exact Or.inr hq2

theorem scan_file_countNew (fs : FS) (f : DirEntry) (w : String) (h : History)
    (d nm : String) :
    List.countP (isNewEv nm d) (scan_file fs f w h d).events =
      if dictHas h f.path = false ∧ f.name = nm then 1 else 0 := by
  cases hrec : dictGet h f.path with
  | some rec0 =>
      have hhas : dictHas h f.path = true := by simp [dictHas, hrec]
      have hcond : ¬ (dictHas h f.path = false ∧ f.name = nm) := by
        rintro ⟨hc, _⟩; rw [hhas] at hc; simp at hc
      rw [if_neg hcond]
      cases hs : fs.statSize f.path with
      | none => simp [scan_file, hrec, hs, isNewEv]
      | some sz =>
          by_cases heq : rec0.2 = sz
          · simp [scan_file, hrec, hs, heq, isNewEv]
          · simp only [scan_file, hrec, hs, if_neg heq]
            rw [scanBody_countNew]
            simp [isNewEv]
  | none =>
      have hhas : dictHas h f.path = false := by simp [dictHas, hrec]
      cases hs : fs.statSize f.path with
      | none =>
          simp only [scan_file, hrec, hs, hhas]
          by_cases hnm : f.name = nm <;> simp [isNewEv, hnm]
      | some sz =>
          simp only [scan_file, hrec, hs, hhas]
          rw [scanBody_countNew]
          by_cases hnm : f.name = nm <;> simp [isNewEv, hnm]

theorem scan_file_events_about (fs : FS) (f : DirEntry) (w : String)
    (h : History) (d p nm : String) (hp : f.path ≠ p) (hn : f.name ≠ nm) :
    ∀ ev ∈ (scan_file fs f w h d).events, aboutEv p nm ev = false := by
  intro ev hev
  have hshape : ev = Event.debugScan f.path w ∨ ev = Event.newFile f.name d ∨
      ∃ i, ev = Event.found w f.name i := by
    cases hrec : dictGet h f.path with
    | some rec0 =>
        cases hs : fs.statSize f.path with
        | none =>
            simp only [scan_file, hrec, hs] at hev
            simp only [List.mem_singleton] at hev
            exact Or.inl hev
        | some sz =>
            by_cases heq : rec0.2 = sz
            · simp only [scan_file, hrec, hs, if_pos heq] at hev
              simp only [List.mem_singleton] at hev
              exact Or.inl hev
            · simp only [scan_file, hrec, hs, if_neg heq] at hev
              rcases scanBody_events_le fs f w h _ ev hev with hev2 | hev2
              · simp only [List.mem_singleton] at hev2
                exact Or.inl hev2
              · exact Or.inr (Or.inr hev2)
    | none =>
        cases hs : fs.statSize f.path with
        | none =>
            simp only [scan_file, hrec, hs] at hev
            rcases List.mem_cons.mp hev with rfl | hev
            · exact Or.inl rfl
            · simp at hev
              exact Or.inr (Or.inl hev)
        | some sz =>
            simp only [scan_file, hrec, hs] at hev
            rcases scanBody_events_le fs f w _ _ ev hev with hev2 | hev2
            · rcases List.mem_cons.mp hev2 with rfl | hev2
              · exact Or.inl rfl
              · simp at hev2
                exact Or.inr (Or.inl hev2)
            · exact Or.inr (Or.inr hev2)
  rcases hshape with rfl | rfl | ⟨i, rfl⟩
  · simp [aboutEv, hp]
  · simp [aboutEv, hn]
  · simp [aboutEv, hn]

end Dirwatcher

namespace Dirwatcher

/-! ### scanAll-level lemmas -/

theorem dictGet_pop_ne (h : History) (k q : String) (hqk : q ≠ k) :
    dictGet (dictPop h k) q = dictGet h q := by
  induction h with
  | nil => simp [dictPop]
  | cons e t ih =>
      by_cases hk : e.1 = k
      · rw [dictPop, if_pos hk, dictGet_cons, if_neg (by rw [hk]; exact fun he => hqk he.symm)]
      · rw [dictPop, if_neg hk, dictGet_cons, dictGet_cons, ih]

theorem scanAll_exc (fs : FS) (w d : String) (L : List DirEntry) :
    ∀ h : History,
    (∀ f ∈ L, f.is_dir = false →
        (fs.statSize f.path).isSome = true ∧ (fs.readLines f.path).isSome = true) →
    (scanAll fs w d L h).exc = none := by
  induction L with
  | nil => intro h _; rfl
  | cons f rest ih =>
      intro h HL
      by_cases hd : f.is_dir
      · simp only [scanAll, if_pos hd]
        exact ih h (fun g hg => HL g (List.mem_cons_of_mem f hg))
      · obtain ⟨h1, h2⟩ := HL f (List.mem_cons_self f rest) (by simpa using hd)
        have hexc := scan_file_exc_none fs f w h d h1 h2
        simp only [scanAll, if_neg hd, hexc]
        exact ih _ (fun g hg => HL g (List.mem_cons_of_mem f hg))

theorem scanAll_has (fs : FS) (w d : String) (L : List DirEntry) :
    ∀ (h : History) (q : String), (scanAll fs w d L h).exc = none →
      dictHas (scanAll fs w d L h).history q =
        (dictHas h q || L.any (fun f => !f.is_dir && decide (f.path = q))) := by
  induction L with
  | nil => intro h q _; simp [scanAll]
  | cons f rest ih =>
      intro h q hexc
      by_cases hd : f.is_dir
      · simp only [scanAll, if_pos hd] at hexc ⊢
        rw [ih h q hexc]
        simp [hd]
      · cases hre : (scan_file fs f w h d).exc with
        | some e =>
            simp only [scanAll, if_neg hd, hre] at hexc
            exact Option.noConfusion hexc
        | none =>
            simp only [scanAll, if_neg hd, hre] at hexc ⊢
            rw [ih _ q hexc, dictHas_update,
              scan_file_has_of_none fs f w h d q hre]
            by_cases hfq : f.path = q
            · simp [hd, hfq]
            · simp [hd, hfq]

theorem scanAll_count (fs : FS) (w d p nm : String) (L : List DirEntry) :
    ∀ h : History,
    (∀ f ∈ L, f.is_dir = false →
        (fs.statSize f.path).isSome = true ∧ (fs.readLines f.path).isSome = true) →
    (∀ f ∈ L, (f.name = nm → f.path = p) ∧ (f.path = p → f.name = nm)) →
    List.countP (isNewEv nm d) (scanAll fs w d L h).events =
      (if dictHas h p = false ∧
          L.any (fun f => !f.is_dir && decide (f.path = p)) = true then 1 else 0) := by
  induction L with
  | nil => intro h _ _; simp [scanAll]
  | cons f rest ih =>
      intro h HL1 HL2
      by_cases hd : f.is_dir
      · simp only [scanAll, if_pos hd]
        rw [ih h (fun g hg => HL1 g (List.mem_cons_of_mem f hg))
              (fun g hg => HL2 g (List.mem_cons_of_mem f hg))]
        simp [hd]
      · obtain ⟨hst, hrd⟩ := HL1 f (List.mem_cons_self f rest) (by simpa using hd)
        have hexc := scan_file_exc_none fs f w h d hst hrd
        simp only [scanAll, if_neg hd, hexc]
        rw [List.countP_append,
          ih _ (fun g hg => HL1 g (List.mem_cons_of_mem f hg))
            (fun g hg => HL2 g (List.mem_cons_of_mem f hg)),
          scan_file_countNew fs f w h d nm]
        have hupd : dictHas (dictUpdate h (scan_file fs f w h d).history) p =
            (dictHas h p || decide (f.path = p)) := by
          rw [dictHas_update, scan_file_has_of_none fs f w h d p hexc]
          by_cases hfq : f.path = p
          · simp [hfq]
          · simp [hfq]
        rw [hupd]
        cases hp0 : dictHas h p with
        | true =>
            have hf0 : ¬ (dictHas h f.path = false ∧ f.name = nm) := by
              rintro ⟨hc, hnm⟩
              rw [(HL2 f (List.mem_cons_self f rest)).1 hnm, hp0] at hc
              exact Bool.noConfusion hc
            simp [hf0, hp0]
        | false =>
            by_cases hfp : f.path = p
            · have hnm : f.name = nm := (HL2 f (List.mem_cons_self f rest)).2 hfp
              have hfh : dictHas h f.path = false := by rw [hfp]; exact hp0
              simp [hfh, hnm, hfp, hd, hp0]
            · have hnm : f.name ≠ nm := fun hc =>
                hfp ((HL2 f (List.mem_cons_self f rest)).1 hc)
              simp [hnm, hp0, hfp, hd]

theorem scanAll_about (fs : FS) (w d p nm : String) (L : List DirEntry) :
    ∀ h : History,
    (∀ f ∈ L, f.is_dir = false → f.path ≠ p ∧ f.name ≠ nm) →
    dictHas h p = false →
    dictHas (scanAll fs w d L h).history p = false
    ∧ ∀ ev ∈ (scanAll fs w d L h).events, aboutEv p nm ev = false := by
  induction L with
  | nil => intro h _ hh; exact ⟨hh, by simp [scanAll]⟩
  | cons f rest ih =>
      intro h HL hh
      by_cases hd : f.is_dir
      · simp only [scanAll, if_pos hd]
        exact ih h (fun g hg => HL g (List.mem_cons_of_mem f hg)) hh
      · obtain ⟨hp, hn⟩ := HL f (List.mem_cons_self f rest) (by simpa using hd)
        have habout := scan_file_events_about fs f w h d p nm hp hn
        cases hre : (scan_file fs f w h d).exc with
        | some e =>
            simp only [scanAll, if_neg hd, hre]
            constructor
            · by_cases hhe : h.isEmpty
              · simpa [hhe] using hh
              · cases hb : dictHas (scan_file fs f w h d).history p with
                | false => simpa [hhe] using hb
                | true =>
                    rcases scan_file_has_le fs f w h d p hb with hc | hc
                    · rw [hh] at hc; exact Bool.noConfusion hc
                    · exact absurd hc hp
            · exact habout
        | none =>
            simp only [scanAll, if_neg hd, hre]
            have hh2 : dictHas (dictUpdate h (scan_file fs f w h d).history) p = false := by
              rw [dictHas_update, scan_file_has_of_none fs f w h d p hre,
                if_neg hp, hh]
              simp
            obtain ⟨ih1, ih2⟩ :=
              ih _ (fun g hg => HL g (List.mem_cons_of_mem f hg)) hh2
            refine ⟨ih1, ?_⟩
            intro ev hev
            rcases List.mem_append.mp hev with hev | hev
            · exact habout ev hev
            · exact ih2 ev hev

/-! ### Reconciliation-loop lemmas -/

theorem reconLoop_events_shape (fp ks : List String) :
    ∀ h : History, ∀ ev ∈ (reconLoop fp ks h).events,
      ∃ k, ev = Event.removedFile k ∧ k ∈ ks ∧ k ∉ fp := by
  induction ks with
  | nil => intro h ev hev; simp [reconLoop] at hev
  | cons k rest ih =>
      intro h ev hev
      by_cases hk : k ∈ fp
      · rw [reconLoop, if_pos hk] at hev
        obtain ⟨k2, h1, h2, h3⟩ := ih h ev hev
        exact ⟨k2, h1, List.mem_cons_of_mem k h2, h3⟩
      · rw [reconLoop, if_neg hk] at hev
        simp only [List.mem_singleton] at hev
        exact ⟨k, hev, List.mem_cons_self k rest, hk⟩

theorem reconLoop_has_le (fp ks : List String) :
    ∀ (h : History) (q : String),
      dictHas (reconLoop fp ks h).history q = true → dictHas h q = true := by
  induction ks with
  | nil => intro h q hq; simpa [reconLoop] using hq
  | cons k rest ih =>
      intro h q hq
      by_cases hk : k ∈ fp
      · rw [reconLoop, if_pos hk] at hq; exact ih h q hq
      · rw [reconLoop, if_neg hk] at hq; exact dictHas_pop_le h k q hq

theorem reconLoop_has_keep (fp ks : List String) :
    ∀ (h : History) (q : String), dictHas h q = true → q ∈ fp →
      dictHas (reconLoop fp ks h).history q = true := by
  induction ks with
  | nil => intro h q hq _; simpa [reconLoop] using hq
  | cons k rest ih =>
      intro h q hq hqf
      by_cases hk : k ∈ fp
      · rw [reconLoop, if_pos hk]; exact ih h q hq hqf
      · rw [reconLoop, if_neg hk]
        have hqk : q ≠ k := fun he => hk (he ▸ hqf)
        simpa [dictHas, dictGet_pop_ne h k q hqk] using hq

theorem reconLoop_noop (fp ks : List String) :
    ∀ h : History, (∀ k ∈ ks, k ∈ fp) → reconLoop fp ks h = ⟨h, [], none⟩ := by
  induction ks with
  | nil => intro h _; rfl
  | cons k rest ih =>
      intro h hall
      rw [reconLoop, if_pos (hall k (List.mem_cons_self k rest))]
      exact ih h (fun g hg => hall g (List.mem_cons_of_mem k hg))

theorem reconLoop_countNew (fp ks : List String) (h : History) (nm d : String) :
    List.countP (isNewEv nm d) (reconLoop fp ks h).events = 0 := by
  rw [List.countP_eq_zero]
  intro ev hev
  obtain ⟨k, rfl, _, _⟩ := reconLoop_events_shape fp ks h ev hev
  simp [isNewEv]

/-! ### filesOf lemmas -/

theorem filesOf_sub (ext : Option String) (entries : List DirEntry)
    (f : DirEntry) (hf : f ∈ filesOf ext entries) : f ∈ entries := by
  cases ext with
  | none => exact hf
  | some e =>
      by_cases he : e.isEmpty
      · simpa [filesOf, he] using hf
      · simp only [filesOf, he, if_false, Bool.false_eq_true] at hf
        exact (List.mem_filter.mp hf).1

theorem filesOf_path_end (e : String) (entries : List DirEntry) (f : DirEntry)
    (he : e.isEmpty = false) (hf : f ∈ filesOf (some e) entries) :
    pyEndsWith f.path e = true := by
  simp only [filesOf, he, if_false, Bool.false_eq_true] at hf
  exact (List.mem_filter.mp hf).2

end Dirwatcher

namespace Dirwatcher

/-! ### watch_dir-level lemmas -/

theorem watch_dir_once (fs : FS) (d w : String) (ext : Option String)
    (h : History) (e : DirEntry) (wait : Nat)
    (hdir : fs.isDir d = true)
    (hread : FS.readable fs d)
    (hmem : e ∈ filesOf ext (fs.listDir d))
    (hnd : e.is_dir = false)
    (hname : ∀ f ∈ fs.listDir d,
        (f.name = e.name → f.path = e.path) ∧ (f.path = e.path → f.name = e.name)) :
    List.countP (isNewEv e.name d) (watch_dir fs d w ext h wait).events =
      (if dictHas h e.path = false then 1 else 0)
    ∧ dictHas (watch_dir fs d w ext h wait).history e.path = true
    ∧ ((watch_dir fs d w ext h wait).exc.isSome = true → h.isEmpty = false) := by
  have hsub : ∀ f ∈ filesOf ext (fs.listDir d), f ∈ fs.listDir d :=
    fun f hf => filesOf_sub ext _ f hf
  have HL1 : ∀ f ∈ filesOf ext (fs.listDir d), f.is_dir = false →
      (fs.statSize f.path).isSome = true ∧ (fs.readLines f.path).isSome = true :=
    fun f hf hfd => hread f (hsub f hf) hfd
  have HL2 : ∀ f ∈ filesOf ext (fs.listDir d),
      (f.name = e.name → f.path = e.path) ∧ (f.path = e.path → f.name = e.name) :=
    fun f hf => hname f (hsub f hf)
  have hexc := scanAll_exc fs w d (filesOf ext (fs.listDir d)) h HL1
  have hcnt := scanAll_count fs w d e.path e.name (filesOf ext (fs.listDir d)) h HL1 HL2
  have hany : (filesOf ext (fs.listDir d)).any
      (fun f => !f.is_dir && decide (f.path = e.path)) = true := by
    rw [List.any_eq_true]
    exact ⟨e, hmem, by simp [hnd]⟩
  have hhasS := scanAll_has fs w d (filesOf ext (fs.listDir d)) h e.path hexc
  rw [hany] at hhasS
  have hfp : e.path ∈ (filesOf ext (fs.listDir d)).map (fun f => f.path) :=
    List.mem_map.mpr ⟨e, hmem, rfl⟩
  have hw : watch_dir fs d w ext h wait =
      ⟨(reconLoop ((filesOf ext (fs.listDir d)).map (fun f => f.path))
          (dictKeys (scanAll fs w d (filesOf ext (fs.listDir d)) h).history)
          (scanAll fs w d (filesOf ext (fs.listDir d)) h).history).history,
       Event.debugDir d ::
         ((scanAll fs w d (filesOf ext (fs.listDir d)) h).events ++
           (reconLoop ((filesOf ext (fs.listDir d)).map (fun f => f.path))
             (dictKeys (scanAll fs w d (filesOf ext (fs.listDir d)) h).history)
             (scanAll fs w d (filesOf ext (fs.listDir d)) h).history).events),
       (reconLoop ((filesOf ext (fs.listDir d)).map (fun f => f.path))
          (dictKeys (scanAll fs w d (filesOf ext (fs.listDir d)) h).history)
          (scanAll fs w d (filesOf ext (fs.listDir d)) h).history).exc⟩ := by
    rw [watch_dir, if_pos hdir]
    simp only [hexc]
  rw [hw]
  refine ⟨?_, ?_, ?_⟩
  · show List.countP (isNewEv e.name d)
        (Event.debugDir d :: (_ ++ _)) = _
    rw [List.countP_cons, List.countP_append, hcnt, reconLoop_countNew]
    rw [hany]
    have : isNewEv e.name d (Event.debugDir d) = false := rfl
    rw [this]
    by_cases hh0 : dictHas h e.path = false
    · simp [hh0]
    · simp [hh0]
  · show dictHas (reconLoop _ _ _).history e.path = true
    exact reconLoop_has_keep _ _ _ e.path (by simpa using hhasS) hfp
  · show ((reconLoop _ _ _).exc).isSome = true → _
    intro hsome
    by_contra hne
    have hemp : h.isEmpty = true := by
      cases hb : h.isEmpty with
      | true => rfl
      | false => exact absurd hb hne
    have h0 : h = [] := by
      cases h with
      | nil => rfl
      | cons a t => simp [List.isEmpty] at hemp
    subst h0
    have hall2 : ∀ k ∈ dictKeys
        (scanAll fs w d (filesOf ext (fs.listDir d)) []).history,
        k ∈ (filesOf ext (fs.listDir d)).map (fun f => f.path) := by
      intro k hk
      have hk2 := dictKeys_has _ k hk
      rw [scanAll_has fs w d _ [] k hexc] at hk2
      have : (filesOf ext (fs.listDir d)).any
          (fun f => !f.is_dir && decide (f.path = k)) = true := by
        simpa [dictHas, dictGet] using hk2
      obtain ⟨f, hfm, hfk⟩ := List.any_eq_true.mp this
      have : f.path = k := by
        rcases Bool.and_eq_true_iff.mp hfk with ⟨_, hfk2⟩
        exact of_decide_eq_true hfk2
      exact List.mem_map.mpr ⟨f, hfm, this⟩
    rw [reconLoop_noop _ _ _ hall2] at hsome
    simp at hsome

theorem watch_about (fs : FS) (d w ef : String) (h : History) (p nm : String)
    (wait : Nat)
    (hne : ef.isEmpty = false) (hp : pyEndsWith p ef = false)
    (hnm : ∀ f ∈ fs.listDir d, f.name = nm → f.path = p)
    (hh : dictHas h p = false) :
    dictHas (watch_dir fs d w (some ef) h wait).history p = false
    ∧ ∀ ev ∈ (watch_dir fs d w (some ef) h wait).events, aboutEv p nm ev = false := by
  by_cases hdir : fs.isDir d = true
  · have HL : ∀ f ∈ filesOf (some ef) (fs.listDir d), f.is_dir = false →
        f.path ≠ p ∧ f.name ≠ nm := by
      intro f hf _
      have hend := filesOf_path_end ef _ f hne hf
      have hfp : f.path ≠ p := by
        intro he
        rw [he, hp] at hend
        exact Bool.noConfusion hend
      exact ⟨hfp, fun hfn => hfp (hnm f (filesOf_sub _ _ f hf) hfn)⟩
    obtain ⟨hhs, hevs⟩ :=
      scanAll_about fs w d p nm (filesOf (some ef) (fs.listDir d)) h HL hh
    cases hexc : (scanAll fs w d (filesOf (some ef) (fs.listDir d)) h).exc with
    | some e =>
        have hw : watch_dir fs d w (some ef) h wait =
            ⟨(scanAll fs w d (filesOf (some ef) (fs.listDir d)) h).history,
             Event.debugDir d ::
               (scanAll fs w d (filesOf (some ef) (fs.listDir d)) h).events,
             some e⟩ := by
          rw [watch_dir, if_pos hdir]
          simp only [hexc]
        rw [hw]
        refine ⟨hhs, ?_⟩
        intro ev hev
        rcases List.mem_cons.mp hev with rfl | hev
        · rfl
        · exact hevs ev hev
    | none =>
        have hw : watch_dir fs d w (some ef) h wait =
            ⟨(reconLoop ((filesOf (some ef) (fs.listDir d)).map (fun f => f.path))
                (dictKeys (scanAll fs w d (filesOf (some ef) (fs.listDir d)) h).history)
                (scanAll fs w d (filesOf (some ef) (fs.listDir d)) h).history).history,
             Event.debugDir d ::
               ((scanAll fs w d (filesOf (some ef) (fs.listDir d)) h).events ++
                 (reconLoop ((filesOf (some ef) (fs.listDir d)).map (fun f => f.path))
                   (dictKeys (scanAll fs w d (filesOf (some ef) (fs.listDir d)) h).history)
                   (scanAll fs w d (filesOf (some ef) (fs.listDir d)) h).history).events),
             (reconLoop ((filesOf (some ef) (fs.listDir d)).map (fun f => f.path))
                (dictKeys (scanAll fs w d (filesOf (some ef) (fs.listDir d)) h).history)
                (scanAll fs w d (filesOf (some ef) (fs.listDir d)) h).history).exc⟩ := by
          rw [watch_dir, if_pos hdir]
          simp only [hexc]
        rw [hw]
        constructor
        · show dictHas (reconLoop _ _ _).history p = false
          cases hb : dictHas (reconLoop
              ((filesOf (some ef) (fs.listDir d)).map (fun f => f.path))
              (dictKeys (scanAll fs w d (filesOf (some ef) (fs.listDir d)) h).history)
              (scanAll fs w d (filesOf (some ef) (fs.listDir d)) h).history).history p with
          | false => rfl
          | true =>
              have := reconLoop_has_le _ _ _ p hb
              rw [hhs] at this
              exact Bool.noConfusion this
        · intro ev hev
          rcases List.mem_cons.mp hev with rfl | hev
          · rfl
          · rcases List.mem_append.mp hev with hev | hev
            · exact hevs ev hev
            · obtain ⟨k, rfl, hk, _⟩ := reconLoop_events_shape _ _ _ ev hev
              have hkp : k ≠ p := by
                intro he
                exact dictHas_none_keys _ p hhs (he ▸ hk)
              simp [aboutEv, hkp]
  · have hdirf : ¬ (fs.isDir d = true) := hdir
    have hw : watch_dir fs d w (some ef) h wait =
        ⟨h, [Event.warnMissing d, Event.sleepFor wait], none⟩ := by
      rw [watch_dir, if_neg hdirf]
    rw [hw]
    refine ⟨hh, ?_⟩
    intro ev hev
    rcases List.mem_cons.mp hev with rfl | hev
    · rfl
    · simp only [List.mem_singleton] at hev
      subst hev
      rfl

end Dirwatcher

namespace Dirwatcher

/-- C6 counterexample: with filter string `w/x` set, the entry named `x`
(whose name does not end with the filter, but whose path `/w/x` does) is
scanned, discovered, and recorded in the history — the code filters on
`f.path.endswith(ext)`, not on the name. -/
theorem ext_filter_name_cex :
    pyEndsWith "x" "w/x" = false
    ∧ watch_dir fsExt "/w" "k" (some "w/x") [] 5 =
      ⟨[("/w/x", (0, 3))],
       [Event.debugDir "/w", Event.debugScan "/w/x" "k", Event.newFile "x" "/w"],
       none⟩ := by
  constructor <;> rfl

/-- C6 (amended): when a non-empty extension filter is set, every directory
entry whose PATH does not end with the filter (for ordinary `.ext` filters
this coincides with the name ending in it) is invisible: across any number
of polls it is never scanned, never generates a discovery, match, or removal
event, and never appears as a key in the history, even if its content
contains the keyword (`nm` is the file's name; the hypothesis says no listed
entry usurps that name at a different path). -/
theorem ext_filter_invisible (d w ef : String) (iv : Nat) (p nm : String)
    (fss : List FS) (h0 : History)
    (hne : ef.isEmpty = false) (hp : pyEndsWith p ef = false)
    (hnm : ∀ fs ∈ fss, ∀ f ∈ fs.listDir d, f.name = nm → f.path = p)
    (hh : dictHas h0 p = false) :
    dictHas (runPolls d w (some ef) iv fss h0).1 p = false
    ∧ ∀ ev ∈ (runPolls d w (some ef) iv fss h0).2, aboutEv p nm ev = false := by
  induction fss generalizing h0 with
  | nil =>
      refine ⟨hh, ?_⟩
      intro ev hev
      simp [runPolls] at hev
  | cons fs rest ih =>
      obtain ⟨hwh, hwev⟩ := watch_about fs d w ef h0 p nm 5 hne hp
        (hnm fs (List.mem_cons_self fs rest)) hh
      have hnm2 : ∀ fs2 ∈ rest, ∀ f ∈ fs2.listDir d, f.name = nm → f.path = p :=
        fun fs2 hf => hnm fs2 (List.mem_cons_of_mem fs hf)
      cases hre : (watch_dir fs d w (some ef) h0 5).exc with
      | none =>
          have hh2 : dictHas (dictUpdate h0 (watch_dir fs d w (some ef) h0 5).history) p
              = false := by
            rw [dictHas_update, hh, hwh]
            rfl
          obtain ⟨ih1, ih2⟩ := ih (dictUpdate h0 (watch_dir fs d w (some ef) h0 5).history)
            hnm2 hh2
          rw [runPolls]
          simp only [hre]
          refine ⟨ih1, ?_⟩
          intro ev hev
          rcases List.mem_append.mp hev with hev | hev
          · rcases List.mem_append.mp hev with hev | hev
            · exact hwev ev hev
            · simp at hev
          · rcases List.mem_cons.mp hev with rfl | hev
            · rfl
            · exact ih2 ev hev
      | some ex =>
          have hh2 : dictHas (if h0.isEmpty then h0
              else (watch_dir fs d w (some ef) h0 5).history) p = false := by
            by_cases he : h0.isEmpty <;> simp [he, hh, hwh]
          obtain ⟨ih1, ih2⟩ := ih (if h0.isEmpty then h0
            else (watch_dir fs d w (some ef) h0 5).history) hnm2 hh2
          rw [runPolls]
          simp only [hre]
          refine ⟨ih1, ?_⟩
          intro ev hev
          rcases List.mem_append.mp hev with hev | hev
          · rcases List.mem_append.mp hev with hev | hev
            · exact hwev ev hev
            · simp only [List.mem_singleton] at hev
              subst hev
              rfl
          · rcases List.mem_cons.mp hev with rfl | hev
            · rfl
            · exact ih2 ev hev

/-- C6 witness: two polls with filter `.log` never discover, match, remove,
or track the file `a.txt` at `/w/a.txt`. -/
theorem ext_filter_invisible_witness :
    (".log" : String).isEmpty = false
    ∧ pyEndsWith "/w/a.txt" ".log" = false
    ∧ (∀ fs ∈ [fsScan1, fsScan2], ∀ f ∈ fs.listDir "/w",
        f.name = "a.txt" → f.path = "/w/a.txt")
    ∧ dictHas [] "/w/a.txt" = false
    ∧ (dictHas (runPolls "/w" "ERROR" (some ".log") 1 [fsScan1, fsScan2] []).1
        "/w/a.txt" = false
       ∧ ∀ ev ∈ (runPolls "/w" "ERROR" (some ".log") 1 [fsScan1, fsScan2] []).2,
           aboutEv "/w/a.txt" "a.txt" ev = false) :=
  ⟨by decide, by decide,
    by
      intro fs hfs
      rcases List.mem_cons.mp hfs with rfl | hfs
      · decide
      · rcases List.mem_cons.mp hfs with rfl | hfs
        · decide
        · simp at hfs,
    by decide,
    ext_filter_invisible "/w" "ERROR" ".log" 1 "/w/a.txt" "a.txt"
      [fsScan1, fsScan2] [] (by decide) (by decide)
      (by
        intro fs hfs
        rcases List.mem_cons.mp hfs with rfl | hfs
        · decide
        · rcases List.mem_cons.mp hfs with rfl | hfs
          · decide
          · simp at hfs)
      (by decide)⟩

end Dirwatcher

namespace Dirwatcher

/-- Across any run of polls in which the file `e` stays listed (and every
listed file stays readable), a path already tracked at the start is never
re-discovered and stays tracked. -/
theorem runPolls_tracked (d w : String) (ext : Option String) (iv : Nat)
    (e : DirEntry) (hnd : e.is_dir = false) (fss : List FS) :
    ∀ h : History,
    (∀ fs ∈ fss, fs.isDir d = true ∧ FS.readable fs d ∧
        e ∈ filesOf ext (fs.listDir d) ∧
        ∀ f ∈ fs.listDir d,
          (f.name = e.name → f.path = e.path) ∧ (f.path = e.path → f.name = e.name)) →
    dictHas h e.path = true →
    List.countP (isNewEv e.name d) (runPolls d w ext iv fss h).2 = 0
    ∧ dictHas (runPolls d w ext iv fss h).1 e.path = true := by
  induction fss with
  | nil =>
      intro h _ hh
      exact ⟨rfl, hh⟩
  | cons fs rest ih =>
      intro h hyps hh
      obtain ⟨hdir, hread, hmem, hname⟩ := hyps fs (List.mem_cons_self fs rest)
      obtain ⟨hcnt, hhas, hexc3⟩ :=
        watch_dir_once fs d w ext h e 5 hdir hread hmem hnd hname
      have hyps2 := fun fs2 hf => hyps fs2 (List.mem_cons_of_mem fs hf)
      have hcnt0 : List.countP (isNewEv e.name d)
          (watch_dir fs d w ext h 5).events = 0 := by
        rw [hcnt, hh]
        simp
      cases hre : (watch_dir fs d w ext h 5).exc with
      | none =>
          have hh2 : dictHas (dictUpdate h (watch_dir fs d w ext h 5).history)
              e.path = true := by
            rw [dictHas_update, hhas]
            simp
          obtain ⟨ih1, ih2⟩ :=
            ih (dictUpdate h (watch_dir fs d w ext h 5).history) hyps2 hh2
          rw [runPolls]
          simp only [hre]
          refine ⟨?_, ih2⟩
          rw [List.countP_append, List.countP_append, hcnt0]
          simp only [List.countP_cons, List.countP_nil, ih1, isNewEv]
          simp
      | some ex =>
          have hemp : h.isEmpty = false := hexc3 (by rw [hre]; rfl)
          have hh2 : dictHas (if h.isEmpty then h
              else (watch_dir fs d w ext h 5).history) e.path = true := by
            rw [hemp]
            simpa using hhas
          obtain ⟨ih1, ih2⟩ :=
            ih (if h.isEmpty then h else (watch_dir fs d w ext h 5).history)
              hyps2 hh2
          rw [runPolls]
          simp only [hre]
          refine ⟨?_, ih2⟩
          rw [List.countP_append, List.countP_append, hcnt0]
          simp only [List.countP_cons, List.countP_nil, ih1, isNewEv]
          simp

/-- C5: a file present in the filtered listing as a non-directory entry
across all polls (all listed files staying readable, and the file's name
identifying it uniquely in each listing) triggers exactly one discovery
event in total, and it is emitted on the first poll; the path is tracked
thereafter.  On first observation the record is created as
`(0, st_size)` — `0` is the code's "none scanned" initial index — before the
line scan proceeds from that index. -/
theorem watch_dir_discovery_once (d w : String) (ext : Option String)
    (iv : Nat) (e : DirEntry) (fs0 : FS) (rest : List FS) (h0 : History)
    (sz : Nat) (lines : List String)
    (hnd : e.is_dir = false)
    (hyps : ∀ fs ∈ fs0 :: rest, fs.isDir d = true ∧ FS.readable fs d ∧
        e ∈ filesOf ext (fs.listDir d) ∧
        ∀ f ∈ fs.listDir d,
          (f.name = e.name → f.path = e.path) ∧ (f.path = e.path → f.name = e.name))
    (h0e : dictHas h0 e.path = false)
    (hsz : fs0.statSize e.path = some sz)
    (hlines : fs0.readLines e.path = some lines) :
    List.countP (isNewEv e.name d) (runPolls d w ext iv (fs0 :: rest) h0).2 = 1
    ∧ List.countP (isNewEv e.name d) (watch_dir fs0 d w ext h0 5).events = 1
    ∧ dictHas (runPolls d w ext iv (fs0 :: rest) h0).1 e.path = true
    ∧ scan_file fs0 e w h0 d =
      ⟨dictSet (dictSet h0 e.path (0, sz)) e.path
          ((scanLinesAux w e.name 0 0 lines).1, sz),
       [Event.debugScan e.path w, Event.newFile e.name d]
         ++ (scanLinesAux w e.name 0 0 lines).2, none⟩ := by
  obtain ⟨hdir, hread, hmem, hname⟩ := hyps fs0 (List.mem_cons_self fs0 rest)
  obtain ⟨hcnt, hhas, hexc3⟩ :=
    watch_dir_once fs0 d w ext h0 e 5 hdir hread hmem hnd hname
  have hcnt1 : List.countP (isNewEv e.name d)
      (watch_dir fs0 d w ext h0 5).events = 1 := by
    rw [hcnt, h0e]
    simp
  have hyps2 := fun fs2 hf => hyps fs2 (List.mem_cons_of_mem fs0 hf)
  have hscan : scan_file fs0 e w h0 d =
      ⟨dictSet (dictSet h0 e.path (0, sz)) e.path
          ((scanLinesAux w e.name 0 0 lines).1, sz),
       [Event.debugScan e.path w, Event.newFile e.name d]
         ++ (scanLinesAux w e.name 0 0 lines).2, none⟩ := by
    have hget : dictGet h0 e.path = none := by
      cases hg : dictGet h0 e.path with
      | none => rfl
      | some v =>
          rw [dictHas, hg] at h0e
          exact Bool.noConfusion h0e
    have hget2 : dictGet (dictSet h0 e.path (0, sz)) e.path = some (0, sz) := by
      rw [dictGet_set]
      simp
    simp only [scan_file, hget, hsz, scanBody, hlines, hget2, Option.getD_some]
    rfl
  refine ⟨?_, hcnt1, ?_, hscan⟩
  · cases hre : (watch_dir fs0 d w ext h0 5).exc with
    | none =>
        have hh2 : dictHas (dictUpdate h0 (watch_dir fs0 d w ext h0 5).history)
            e.path = true := by
          rw [dictHas_update, hhas]
          simp
        obtain ⟨ih1, _⟩ := runPolls_tracked d w ext iv e hnd rest
          (dictUpdate h0 (watch_dir fs0 d w ext h0 5).history) hyps2 hh2
        rw [runPolls]
        simp only [hre]
        rw [List.countP_append, List.countP_append, hcnt1]
        simp only [List.countP_cons, List.countP_nil, ih1, isNewEv]
        simp
    | some ex =>
        have hemp : h0.isEmpty = false := hexc3 (by rw [hre]; rfl)
        have hh2 : dictHas (if h0.isEmpty then h0
            else (watch_dir fs0 d w ext h0 5).history) e.path = true := by
          rw [hemp]
          simpa using hhas
        obtain ⟨ih1, _⟩ := runPolls_tracked d w ext iv e hnd rest
          (if h0.isEmpty then h0 else (watch_dir fs0 d w ext h0 5).history)
          hyps2 hh2
        rw [runPolls]
        simp only [hre]
        rw [List.countP_append, List.countP_append, hcnt1]
        simp only [List.countP_cons, List.countP_nil, ih1, isNewEv]
        simp
  · cases hre : (watch_dir fs0 d w ext h0 5).exc with
    | none =>
        have hh2 : dictHas (dictUpdate h0 (watch_dir fs0 d w ext h0 5).history)
            e.path = true := by
          rw [dictHas_update, hhas]
          simp
        obtain ⟨_, ih2⟩ := runPolls_tracked d w ext iv e hnd rest
          (dictUpdate h0 (watch_dir fs0 d w ext h0 5).history) hyps2 hh2
        rw [runPolls]
        simp only [hre]
        exact ih2
    | some ex =>
        have hemp : h0.isEmpty = false := hexc3 (by rw [hre]; rfl)
        have hh2 : dictHas (if h0.isEmpty then h0
            else (watch_dir fs0 d w ext h0 5).history) e.path = true := by
          rw [hemp]
          simpa using hhas
        obtain ⟨_, ih2⟩ := runPolls_tracked d w ext iv e hnd rest
          (if h0.isEmpty then h0 else (watch_dir fs0 d w ext h0 5).history)
          hyps2 hh2
        rw [runPolls]
        simp only [hre]
        exact ih2

end Dirwatcher

namespace Dirwatcher

/-- C5 witness: `/w/a` listed across two polls is discovered exactly once,
on the first poll, with its record created as `(0, 9)` before the scan. -/
theorem watch_dir_discovery_once_witness :
    entA.is_dir = false
    ∧ dictHas [] entA.path = false
    ∧ fsScan1.statSize entA.path = some 9
    ∧ fsScan1.readLines entA.path = some ["x ERROR x", "y", "z ERROR z"]
    ∧ (List.countP (isNewEv entA.name "/w")
        (runPolls "/w" "ERROR" none 1 [fsScan1, fsScan2] []).2 = 1
       ∧ List.countP (isNewEv entA.name "/w")
           (watch_dir fsScan1 "/w" "ERROR" none [] 5).events = 1
       ∧ dictHas (runPolls "/w" "ERROR" none 1 [fsScan1, fsScan2] []).1
           entA.path = true
       ∧ scan_file fsScan1 entA "ERROR" [] "/w" =
         ⟨dictSet (dictSet [] entA.path (0, 9)) entA.path
             ((scanLinesAux "ERROR" entA.name 0 0
                 ["x ERROR x", "y", "z ERROR z"]).1, 9),
          [Event.debugScan entA.path "ERROR", Event.newFile entA.name "/w"]
            ++ (scanLinesAux "ERROR" entA.name 0 0
                 ["x ERROR x", "y", "z ERROR z"]).2, none⟩) :=
  ⟨by decide, by decide, by decide, by decide,
    watch_dir_discovery_once "/w" "ERROR" none 1 entA fsScan1 [fsScan2] [] 9
      ["x ERROR x", "y", "z ERROR z"] (by decide)
      (by
        intro fs hfs
        rcases List.mem_cons.mp hfs with rfl | hfs
        · exact ⟨by decide, by decide, by decide, by decide⟩
        · rcases List.mem_cons.mp hfs with rfl | hfs
          · exact ⟨by decide, by decide, by decide, by decide⟩
          · simp at hfs)
      (by decide) (by decide) (by decide)⟩

end Dirwatcher

namespace Dirwatcher

theorem mainLoop_eq_runPolls (envs : Nat → FS) (d w : String)
    (ext : Option String) (iv : Nat) (flag : Nat → Bool) (n : Nat) :
    ∀ (fuel k : Nat) (h : History),
    (∀ j, j < n → flag (k + j) = false) → flag (k + n) = true → n < fuel →
    mainLoop envs d w ext iv flag fuel k h =
      ((runPolls d w ext iv (pollStream envs k n) h).1,
       (runPolls d w ext iv (pollStream envs k n) h).2 ++
         [Event.bannerExiting, Event.uptimeLog]) := by
  induction n with
  | zero =>
      intro fuel k h _ hN hfuel
      cases fuel with
      | zero => omega
      | succ m =>
          have hk : flag k = true := by simpa using hN
          rw [mainLoop, if_pos hk]
          simp [pollStream, runPolls]
  | succ m ih =>
      intro fuel k h hlt hN hfuel
      cases fuel with
      | zero => omega
      | succ fl =>
          have hk : flag k = false := by
            have := hlt 0 (Nat.succ_pos m)
            simpa using this
          have hlt2 : ∀ j, j < m → flag (k + 1 + j) = false := by
            intro j hj
            have hx := hlt (j + 1) (by omega)
            have harith : k + (j + 1) = k + 1 + j := by omega
            rwa [harith] at hx
          have hN2 : flag (k + 1 + m) = true := by
            have harith : k + (m + 1) = k + 1 + m := by omega
            rwa [harith] at hN
          rw [mainLoop, if_neg (by simp [hk])]
          rw [pollStream, runPolls]
          cases hre : (watch_dir (envs k) d w ext h 5).exc with
          | none =>
              simp only [hre]
              rw [ih fl (k + 1) _ hlt2 hN2 (by omega)]
              simp [List.append_assoc]
          | some ex =>
              simp only [hre]
              rw [ih fl (k + 1) _ hlt2 hN2 (by omega)]
              simp [List.append_assoc]

/-- C8: the poll loop iterates exactly while the termination flag is unset —
with the flag first observed set at check `n`, the trace is the `n` poll
iterations (each iteration's escaped fault logged at error level as the
`errorLog` event in `runPolls`, never stopping the loop, each iteration
ending with the interval sleep) followed by the `Exiting` shutdown banner
and then the uptime log. -/
theorem main_loop_flag_shutdown (envs : Nat → FS) (d w : String)
    (ext : Option String) (iv : Nat) (flag : Nat → Bool) (n fuel : Nat)
    (h : History) (hrun : ∀ j, j < n → flag j = false) (hstop : flag n = true)
    (hfuel : n < fuel) :
    mainLoop envs d w ext iv flag fuel 0 h =
      ((runPolls d w ext iv (pollStream envs 0 n) h).1,
       (runPolls d w ext iv (pollStream envs 0 n) h).2 ++
         [Event.bannerExiting, Event.uptimeLog]) := by
  have h0 : ∀ j, j < n → flag (0 + j) = false := by
    intro j hj
    simpa using hrun j hj
  have hN : flag (0 + n) = true := by simpa using hstop
  exact mainLoop_eq_runPolls envs d w ext iv flag n fuel 0 h h0 hN hfuel

/-- C8 witness: one faulting iteration (the listed file vanishes before its
read, so the cycle logs an error) runs to completion, then the flag set at
check 1 ends the loop with the shutdown banner and uptime log. -/
theorem main_loop_flag_shutdown_witness :
    (∀ j, j < 1 → (fun k => decide (0 < k)) j = false)
    ∧ (fun k => decide (0 < k)) 1 = true
    ∧ 1 < 3
    ∧ mainLoop (fun _ => fsVanish) "/w" "k" none 1 (fun k => decide (0 < k))
        3 0 [("/w/old", (0, 3))] =
      ((runPolls "/w" "k" none 1 (pollStream (fun _ => fsVanish) 0 1)
          [("/w/old", (0, 3))]).1,
       (runPolls "/w" "k" none 1 (pollStream (fun _ => fsVanish) 0 1)
          [("/w/old", (0, 3))]).2 ++
         [Event.bannerExiting, Event.uptimeLog]) :=
  ⟨by
      intro j hj
      have hj0 : j = 0 := by omega
      subst hj0
      rfl,
    by decide, by decide,
    main_loop_flag_shutdown (fun _ => fsVanish) "/w" "k" none 1
      (fun k => decide (0 < k)) 1 3 [("/w/old", (0, 3))]
      (by
        intro j hj
        have hj0 : j = 0 := by omega
        subst hj0
        rfl)
      (by decide) (by decide)⟩

end Dirwatcher
